import Mathlib

/-!
Verification of the reverse-mode sweep engine in
`src/TMB/inst/include/cppad/local/reverse.hpp` (`ADFun::Reverse` and
`ADFun::myReverse`).  The adjoint buffer is modelled as a total function
`Nat → ℤ` over flat indices `variable * p + order`, matching the source's
`Partial[i * p + j]` layout.  The operation-specific propagation sweeps
(`ReverseSweep`, `myReverseSweep`) are external to the file under `src/`;
they enter the model either as an abstract buffer transformer (for claims
that do not depend on their internals) or as a tape-based chain-rule model
built from the specification's description (for the selective/full
equivalence claim).
-/

namespace TMBReverse

/-- The adjoint buffer: flat array of `Base` values indexed by
`variable * p + order` (the source's `Partial`). -/
abbrev Buf := Nat → ℤ

/-- The slice of `ADFun` state that `Reverse` and `myReverse` read and
write.  `Partial` is the member scratch buffer (TMB's addition) used by
`myReverse`; `op_inv_index` and `op_mark` model the member index
structures `op_inv_index_` and `op_mark_index_`/`tp_` consumed by the
extraction and cleanup loops: each entry of `op_mark` is the pair
`(tp.var_index, NumRes(tp.op))` of a marked operation. -/
structure ADFunState where
  total_num_var : Nat
  ind_taddr : List Nat
  dep_taddr : List Nat
  taylor_per_var : Nat
  Partial : Buf
  op_inv_index : List Nat
  op_mark : List (Nat × Nat)

/-- Short-weight-form seeding (`reverse.hpp` lines 164-167): for each
dependent-variable/weight pair, `Partial[dep_taddr_[i]*p + p-1] += w[i]`. -/
def seedShort (p : Nat) : List (Nat × ℤ) → Buf → Buf
  | [], P => P
  | (d, wi) :: rest, P =>
      seedShort p rest
        (Function.update P (d * p + (p - 1)) (P (d * p + (p - 1)) + wi))

/-- One row of long-weight-form seeding (`reverse.hpp` lines 169-171):
`Partial[dep_taddr_[i]*p + k] = w[i*p + k]` for `k = 0 .. p-1` (direct
assignment, as in the source). -/
def seedLongRow (w : List ℤ) (p d i : Nat) (P : Buf) : Buf :=
  (List.range p).foldl
    (fun Q k => Function.update Q (d * p + k) (w.getD (i * p + k) 0)) P

/-- Long-weight-form seeding over all dependent variables, `i` tracking the
dependent-variable index into `w`. -/
def seedLong (w : List ℤ) (p : Nat) : List Nat → Nat → Buf → Buf
  | [], _, P => P
  | d :: rest, i, P => seedLong w p rest (i + 1) (seedLongRow w p d i P)

/-- The seeded local buffer of `Reverse` (lines 157-173): start from an
all-zero buffer and apply the short- or long-form seeding according to
`w.size() == m`. -/
def ReverseSeed (F : ADFunState) (p : Nat) (w : List ℤ) : Buf :=
  if w.length = F.dep_taddr.length then
    seedShort p (F.dep_taddr.zip w) (fun _ => 0)
  else
    seedLong w p F.dep_taddr 0 (fun _ => 0)

/-- The local buffer of `Reverse` after the external `ReverseSweep` call
(line 176-185), with the sweep abstracted as a buffer transformer. -/
def ReverseLocalBuf (F : ADFunState) (sweep : Buf → Buf) (p : Nat)
    (w : List ℤ) : Buf :=
  sweep (ReverseSeed F p w)

/-- The extraction loop of `Reverse` (lines 188-208): for each independent
variable `j` and order `k`, `value[j*p+k]` is read from the swept buffer,
reindexed by `p-1-k` in the short-weight case (Reverse Identity Theorem)
and by `k` in the long-weight case. -/
def ReverseExtract (ind : List Nat) (p m : Nat) (w : List ℤ) (buf : Buf) :
    List ℤ :=
  (List.range ind.length).flatMap fun j =>
    (List.range p).map fun k =>
      if w.length = m then buf (ind.getD j 0 * p + (p - 1 - k))
      else buf (ind.getD j 0 * p + k)

/-- Message of the `CPPAD_ASSERT_KNOWN` on `w.size()` (lines 142-146). -/
def reverseMsgW : String :=
  "Argument w to Reverse does not have length equal to the dimension of the range for the corresponding ADFun."

/-- Message of the `CPPAD_ASSERT_KNOWN` on `p > 0` (lines 147-150). -/
def reverseMsgP : String :=
  "The first argument to Reverse must be greater than zero."

/-- Message of the `CPPAD_ASSERT_KNOWN` on `taylor_per_var_ >= p`
(lines 151-155). -/
def reverseMsgTaylor : String :=
  "Less that p taylor_ coefficients are currently stored in this ADFun object."

/-- `ADFun::Reverse` (lines 118-211).  The precondition checks fire in
source order before the local buffer is seeded; on success the result
vector is extracted from the call-local buffer and the `ADFun` state is
returned unchanged (the source's `Partial` here is a local `pod_vector`,
not the member buffer). -/
def ReverseFull (F : ADFunState) (sweep : Buf → Buf) (p : Nat)
    (w : List ℤ) : Except String (List ℤ × ADFunState) :=
  let m := F.dep_taddr.length
  if w.length ≠ m ∧ w.length ≠ m * p then .error reverseMsgW
  else if p = 0 then .error reverseMsgP
  else if F.taylor_per_var < p then .error reverseMsgTaylor
  else
    .ok (ReverseExtract F.ind_taddr p m w (ReverseLocalBuf F sweep p w), F)

/-- Message of the `CPPAD_ASSERT_KNOWN` on `p == 1` in `myReverse`
(lines 220-223). -/
def myReverseMsgP : String :=
  "myReverse only works for first order calculations."

/-- Set every address of `addrs` to zero, in order (the write pattern of
the cleanup loop). -/
def zeroAt (addrs : List Nat) (P : Buf) : Buf :=
  addrs.foldl (fun Q a => Function.update Q a 0) P

/-- The buffer addresses cleared by the cleanup loop of `myReverse`
(lines 333-339): for every marked operation `(var_index, numRes)`, the
addresses `var_index - i*p + j` for `i < numRes` and `j < p`. -/
def clearedAddrs (marks : List (Nat × Nat)) (p : Nat) : List Nat :=
  marks.flatMap fun mk =>
    (List.range mk.2).flatMap fun i =>
      (List.range p).map fun j => mk.1 - i * p + j

/-- The cleanup phase of `myReverse` ("Fill used Partials with zeros",
lines 332-339): zero the rows of every marked operation. -/
def clearMarked (marks : List (Nat × Nat)) (p : Nat) (P : Buf) : Buf :=
  zeroAt (clearedAddrs marks p) P

/-- The extraction loop of `myReverse` (lines 309-316): for every entry
`it` of `op_inv_index_`, with `j = it - 1`, write
`value[j*p+k] = Partial[ind_taddr_[j]*p + p-1-k]` for `k < p`; all other
entries of the caller-supplied `value` are untouched. -/
def writeValue (inv ind : List Nat) (p : Nat) (buf value : Buf) : Buf :=
  inv.foldl
    (fun v it =>
      (List.range p).foldl
        (fun v2 k =>
          Function.update v2 ((it - 1) * p + k)
            (buf (ind.getD (it - 1) 0 * p + (p - 1 - k)))) v)
    value

/-- `ADFun::myReverse` (lines 218-376).  The `p == 1` check fires first;
the remaining `CPPAD_ASSERT_KNOWN` checks follow in source order.  On
success the member buffer `Partial` is seeded with `1.0` at the chosen
dependent variable's address, the external `myReverseSweep` (abstracted as
`sweep`) propagates, the result entries listed by `op_inv_index_` are
written into `value`, and the rows of the marked operations are zeroed;
the updated `value` and the state with the cleaned member buffer are
returned. -/
def myReverse (F : ADFunState) (sweep : Buf → Buf) (p : Nat) (w : List ℤ)
    (dep_var_index : Nat) (value : Buf) :
    Except String (Buf × ADFunState) :=
  if p ≠ 1 then .error myReverseMsgP
  else
    let m := F.dep_taddr.length
    if w.length ≠ m ∧ w.length ≠ m * p then .error reverseMsgW
    else if p = 0 then .error reverseMsgP
    else if F.taylor_per_var < p then .error reverseMsgTaylor
    else
      let dep_var_taddr := F.dep_taddr.getD dep_var_index 0
      let buf := sweep (Function.update F.Partial (dep_var_taddr * p + (p - 1)) 1)
      .ok (writeValue F.op_inv_index F.ind_taddr p buf value,
           { F with Partial := clearMarked F.op_mark p buf })

/-- One tape operation of the p = 1 chain-rule model (modelled from the
spec: the tape reader exposes, per operation, its result address, its
operand addresses with the local partial derivative of the result with
respect to each operand, and — via the Relevance Index — whether the
operation is marked relevant to the chosen dependent variable). -/
structure TapeOp where
  res : Nat
  args : List (Nat × ℤ)
  relevant : Bool

/-- Modelled from the spec: one reverse chain-rule step (§4.1 step 3) at
p = 1 — add, into each operand row, the local partial times the adjoint of
the operation's result. -/
def revStep (P : Buf) (op : TapeOp) : Buf :=
  op.args.foldl (fun Q pr => Function.update Q pr.1 (Q pr.1 + pr.2 * Q op.res)) P

/-- Modelled from the spec: the full reverse sweep (`ReverseSweep`, not
under `src/`) at p = 1 — traverse every tape operation in reverse recorded
order, applying the chain-rule step. -/
def fullSweep : List TapeOp → Buf → Buf
  | [], P => P
  | op :: rest, P => revStep (fullSweep rest P) op

/-- Modelled from the spec: the selective reverse sweep (`myReverseSweep`,
not under `src/`) at p = 1 — traverse the tape in reverse recorded order
but apply the chain-rule step only at operations marked relevant. -/
def selSweep : List TapeOp → Buf → Buf
  | [], P => P
  | op :: rest, P =>
      if op.relevant then revStep (selSweep rest P) op else selSweep rest P

/-- Addresses the selective sweep may leave nonzero: the seed address `s`
and the operand addresses of relevant operations. -/
def relAddr (s : Nat) (tape : List TapeOp) (a : Nat) : Bool :=
  a == s || tape.any fun op => op.relevant && op.args.any fun pr => pr.1 == a

/-- Completeness of the relevance marking with respect to seed address
`s`: the result of every unmarked operation is neither the seed nor an
operand of any marked operation (otherwise a backward-reachable operation
was left unmarked). -/
def markingComplete (s : Nat) (tape : List TapeOp) : Prop :=
  ∀ op ∈ tape, op.relevant = false → relAddr s tape op.res = false

/-- The weight vector that is all-zero except for a `1` at position `i`. -/
def oneHot : Nat → Nat → List ℤ
  | 0, _ => []
  | m + 1, 0 => 1 :: List.replicate m 0
  | m + 1, i + 1 => 0 :: oneHot m i

/-- The long-form weight vector of length `m * p` that is one-hot at order
`p - 1`: `w_long[i*p + k] = w_short[i]` when `k = p - 1` and `0`
otherwise. -/
def oneHotLong (w : List ℤ) (p : Nat) : List ℤ :=
  (List.range w.length).flatMap fun i =>
    (List.range p).map fun k => if k = p - 1 then w.getD i 0 else 0

/-- One selective-sweep call of a sequence: its (abstract) sweep, weight
vector and dependent-variable index. -/
structure RevCall where
  sweep : Buf → Buf
  w : List ℤ
  dep_var_index : Nat

/-- Run a sequence of `myReverse` calls (each at p = 1) on the same engine
instance, threading the state. -/
def runCalls : List RevCall → ADFunState → Except String ADFunState
  | [], F => .ok F
  | c :: cs, F =>
      match myReverse F c.sweep 1 c.w c.dep_var_index (fun _ => 0) with
      | .error e => .error e
      | .ok out => runCalls cs out.2

/-! ### Helper lemmas -/

lemma zeroAt_apply (l : List Nat) (P : Buf) (a : Nat) :
    zeroAt l P a = if a ∈ l then 0 else P a := by
  induction l generalizing P with
  | nil => simp [zeroAt]
  | cons b rest ih =>
      by_cases hab : a = b
      · subst hab
        simp only [zeroAt, List.foldl_cons, List.mem_cons, true_or, if_pos]
        rw [show (List.foldl (fun Q a => Function.update Q a 0)
              (Function.update P a 0) rest) = zeroAt rest (Function.update P a 0) from rfl,
            ih]
        by_cases h : a ∈ rest <;> simp [h, Function.update_same]
      · simp only [zeroAt, List.foldl_cons]
        rw [show (List.foldl (fun Q a => Function.update Q a 0)
              (Function.update P b 0) rest) = zeroAt rest (Function.update P b 0) from rfl,
            ih]
        by_cases h : a ∈ rest <;>
          simp [h, hab, Function.update_noteq hab]

lemma seedShort_apply (p : Nat) (hp : 0 < p) (l : List (Nat × ℤ)) (P : Buf)
    (a : Nat) :
    seedShort p l P (a * p + (p - 1)) =
      P (a * p + (p - 1)) + ((l.filter fun pr => pr.1 == a).map Prod.snd).sum := by
  induction l generalizing P with
  | nil => simp [seedShort]
  | cons pr rest ih =>
      obtain ⟨d, wi⟩ := pr
      by_cases hda : d = a
      · subst hda
        simp only [seedShort, ih, Function.update_same, List.filter_cons,
          beq_self_eq_true, if_pos, List.map_cons, List.sum_cons]
        ring
      · have hne : a * p + (p - 1) ≠ d * p + (p - 1) := by
          intro h
          exact hda (Nat.eq_of_mul_eq_mul_right hp (by omega)).symm
        simp only [seedShort, ih, Function.update_noteq hne, List.filter_cons]
        have : (d == a) = false := by simp [hda]
        simp [this]

lemma seedShort_apply_ne (p : Nat) (l : List (Nat × ℤ)) (P : Buf) (b : Nat)
    (hb : ∀ pr ∈ l, b ≠ pr.1 * p + (p - 1)) :
    seedShort p l P b = P b := by
  induction l generalizing P with
  | nil => rfl
  | cons pr rest ih =>
      obtain ⟨d, wi⟩ := pr
      have hbd : b ≠ d * p + (p - 1) := hb (d, wi) (List.mem_cons_self _ _)
      rw [seedShort, ih _ (fun q hq => hb q (List.mem_cons_of_mem _ hq)),
        Function.update_noteq hbd]

lemma range_flatMap_map_length {α : Type} (n p : Nat) (g : Nat → Nat → α) :
    ((List.range n).flatMap fun j => (List.range p).map (g j)).length = n * p := by
  induction n with
  | zero => simp
  | succ n ih =>
      rw [List.range_succ, List.flatMap_append, List.length_append, ih]
      simp [Nat.succ_mul]

lemma range_flatMap_map_getElem? {α : Type} (n p j k : Nat) (g : Nat → Nat → α)
    (hj : j < n) (hk : k < p) :
    ((List.range n).flatMap fun j => (List.range p).map (g j))[j * p + k]? =
      some (g j k) := by
  induction n with
  | zero => omega
  | succ n ih =>
      rw [List.range_succ, List.flatMap_append]
      rcases Nat.lt_or_ge j n with h | h
      · have hlt : j * p + k <
            ((List.range n).flatMap fun j => (List.range p).map (g j)).length := by
          rw [range_flatMap_map_length]
          calc j * p + k < j * p + p := by omega
            _ = (j + 1) * p := by ring
            _ ≤ n * p := Nat.mul_le_mul_right p h
        rw [List.getElem?_append_left hlt, ih h]
      · have hjn : j = n := by omega
        subst hjn
        have hge : ((List.range j).flatMap fun j =>
            (List.range p).map (g j)).length ≤ j * p + k := by
          rw [range_flatMap_map_length]; omega
        rw [List.getElem?_append_right hge, range_flatMap_map_length]
        simp only [List.flatMap_cons, List.flatMap_nil, List.append_nil]
        have hk' : j * p + k - j * p = k := by omega
        rw [hk', List.getElem?_map, List.getElem?_range hk]
        rfl

lemma revStep_of_res_zero (P : Buf) (op : TapeOp) (h : P op.res = 0) :
    revStep P op = P := by
  rw [revStep]
  induction op.args with
  | nil => rfl
  | cons pr rest ih =>
      simp only [List.foldl_cons, h, mul_zero, add_zero, Function.update_eq_self, ih]

lemma revStep_apply_notarg (P : Buf) (op : TapeOp) (b : Nat)
    (h : ∀ pr ∈ op.args, pr.1 ≠ b) :
    revStep P op b = P b := by
  rw [revStep]
  have aux : ∀ (l : List (Nat × ℤ)) (Q : Buf), (∀ pr ∈ l, pr.1 ≠ b) →
      (l.foldl (fun Q pr => Function.update Q pr.1 (Q pr.1 + pr.2 * Q op.res)) Q) b
        = Q b := by
    intro l
    induction l with
    | nil => intro Q _; rfl
    | cons pr rest ih =>
        intro Q hQ
        rw [List.foldl_cons, ih _ (fun q hq => hQ q (List.mem_cons_of_mem _ hq)),
          Function.update_noteq (Ne.symm (hQ pr (List.mem_cons_self _ _)))]
  exact aux op.args P h

lemma sweeps_agree (tape : List TapeOp) (W : Nat → Bool)
    (hargs : ∀ op ∈ tape, op.relevant = true → ∀ pr ∈ op.args, W pr.1 = true)
    (hres : ∀ op ∈ tape, op.relevant = false → W op.res = false) :
    ∀ P : Buf, (∀ a, W a = false → P a = 0) →
      fullSweep tape P = selSweep tape P ∧
        ∀ a, W a = false → fullSweep tape P a = 0 := by
  induction tape with
  | nil => intro P hP; exact ⟨rfl, hP⟩
  | cons op rest ih =>
      intro P hP
      obtain ⟨heq, hz⟩ := ih (fun o ho => hargs o (List.mem_cons_of_mem _ ho))
        (fun o ho => hres o (List.mem_cons_of_mem _ ho)) P hP
      cases hrel : op.relevant with
      | false =>
          have hres0 : fullSweep rest P op.res = 0 :=
            hz op.res (hres op (List.mem_cons_self _ _) hrel)
          have hfull : fullSweep (op :: rest) P = fullSweep rest P := by
            rw [fullSweep, revStep_of_res_zero _ _ hres0]
          have hsel : selSweep (op :: rest) P = selSweep rest P := by
            rw [selSweep, hrel]; simp
          exact ⟨by rw [hfull, hsel, heq], fun a ha => by rw [hfull]; exact hz a ha⟩
      | true =>
          have hfull : fullSweep (op :: rest) P = revStep (fullSweep rest P) op := rfl
          have hsel : selSweep (op :: rest) P = revStep (selSweep rest P) op := by
            rw [selSweep, hrel]; simp
          refine ⟨by rw [hfull, hsel, heq], fun a ha => ?_⟩
          rw [hfull, revStep_apply_notarg]
          · exact hz a ha
          · intro pr hpr hpa
            have hW := hargs op (List.mem_cons_self _ _) hrel pr hpr
            rw [hpa] at hW
            rw [hW] at ha
            simp at ha

lemma sweeps_agree_marked (tape : List TapeOp) (s : Nat)
    (hcomp : markingComplete s tape) (P : Buf)
    (hP : ∀ a, relAddr s tape a = false → P a = 0) :
    fullSweep tape P = selSweep tape P ∧
      ∀ a, relAddr s tape a = false → fullSweep tape P a = 0 := by
  refine sweeps_agree tape (relAddr s tape) ?_ hcomp P hP
  intro op hop hrel pr hpr
  have hinner : (op.relevant && op.args.any fun q => q.1 == pr.1) = true := by
    rw [hrel, Bool.true_and, List.any_eq_true]
    exact ⟨pr, hpr, by simp⟩
  simp only [relAddr, Bool.or_eq_true, List.any_eq_true]
  exact Or.inr ⟨op, hop, hinner⟩

lemma writeValue_apply_one (inv ind : List Nat) (buf value : Buf) (idx : Nat) :
    writeValue inv ind 1 buf value idx =
      if idx ∈ inv.map (· - 1) then buf (ind.getD idx 0) else value idx := by
  induction inv generalizing value with
  | nil => simp [writeValue]
  | cons it rest ih =>
      have hrange : List.range 1 = [0] := rfl
      have hstep : writeValue (it :: rest) ind 1 buf value =
          writeValue rest ind 1 buf
            (Function.update value (it - 1) (buf (ind.getD (it - 1) 0))) := by
        simp [writeValue, hrange]
      rw [hstep, ih]
      by_cases h : idx = it - 1
      · have hmem : idx ∈ (it :: rest).map (· - 1) := by simp [h]
        rw [if_pos hmem]
        by_cases hr : idx ∈ rest.map (· - 1)
        · rw [if_pos hr]
        · rw [if_neg hr, h, Function.update_same]
      · have hmem : (idx ∈ (it :: rest).map (· - 1)) ↔ (idx ∈ rest.map (· - 1)) := by
          simp [h]
        rw [Function.update_noteq h]
        by_cases hr : idx ∈ rest.map (· - 1)
        · rw [if_pos hr, if_pos (hmem.mpr hr)]
        · rw [if_neg hr, if_neg (fun hc => hr (hmem.mp hc))]

lemma myReverse_ok (F : ADFunState) (sweep : Buf → Buf) (w : List ℤ)
    (dvi : Nat) (value : Buf)
    (hw : w.length = F.dep_taddr.length) (htay : 1 ≤ F.taylor_per_var) :
    myReverse F sweep 1 w dvi value =
      .ok (writeValue F.op_inv_index F.ind_taddr 1
             (sweep (Function.update F.Partial
               (F.dep_taddr.getD dvi 0 * 1 + (1 - 1)) 1)) value,
           { F with Partial := clearMarked F.op_mark 1 (sweep (Function.update F.Partial (F.dep_taddr.getD dvi 0 * 1 + (1 - 1)) 1)) }) := by
  have h4 : ¬ (F.taylor_per_var < 1) := Nat.not_lt.mpr htay
  simp [myReverse, hw, h4]

lemma ReverseFull_ok (F : ADFunState) (sweep : Buf → Buf) (p : Nat) (w : List ℤ)
    (hw : w.length = F.dep_taddr.length ∨ w.length = F.dep_taddr.length * p)
    (hp : p ≠ 0) (htay : p ≤ F.taylor_per_var) :
    ReverseFull F sweep p w =
      .ok (ReverseExtract F.ind_taddr p F.dep_taddr.length w
             (ReverseLocalBuf F sweep p w), F) := by
  have h1 : ¬ (w.length ≠ F.dep_taddr.length ∧
      w.length ≠ F.dep_taddr.length * p) := by tauto
  have h3 : ¬ (F.taylor_per_var < p) := Nat.not_lt.mpr htay
  simp [ReverseFull, h1, hp, h3]

lemma oneHot_length (m i : Nat) : (oneHot m i).length = m := by
  induction m generalizing i with
  | zero => rfl
  | succ m ih =>
      cases i with
      | zero => simp [oneHot]
      | succ i => simp [oneHot, ih]

lemma oneHot_getD (m i j : Nat) (hj : j < m) :
    (oneHot m i).getD j 0 = if j = i then 1 else 0 := by
  induction m generalizing i j with
  | zero => omega
  | succ m ih =>
      cases i with
      | zero =>
          cases j with
          | zero => simp [oneHot]
          | succ j =>
              simp only [oneHot, List.getD_cons_succ]
              rw [List.getD_eq_getElem?_getD, List.getElem?_replicate_of_lt (by omega)]
              simp
      | succ i =>
          cases j with
          | zero => simp [oneHot]
          | succ j =>
              simp only [oneHot, List.getD_cons_succ]
              rw [ih i j (by omega)]
              simp [Nat.succ_inj]

lemma seedShort_zero_wts (p : Nat) (l : List (Nat × ℤ)) (P : Buf)
    (h : ∀ pr ∈ l, pr.2 = 0) : seedShort p l P = P := by
  induction l generalizing P with
  | nil => rfl
  | cons pr rest ih =>
      obtain ⟨d, wi⟩ := pr
      have hwi : wi = 0 := h (d, wi) (List.mem_cons_self _ _)
      rw [seedShort, hwi, add_zero, Function.update_eq_self,
        ih _ (fun q hq => h q (List.mem_cons_of_mem _ hq))]

lemma seedShort_oneHot (dep : List Nat) (i : Nat) (P : Buf)
    (hi : i < dep.length) :
    seedShort 1 (dep.zip (oneHot dep.length i)) P =
      Function.update P (dep.getD i 0) (P (dep.getD i 0) + 1) := by
  induction dep generalizing i P with
  | nil => simp at hi
  | cons d rest ih =>
      cases i with
      | zero =>
          have honehot : oneHot (d :: rest).length 0 =
              1 :: List.replicate rest.length 0 := by
            simp [oneHot]
          have hzero : seedShort 1 (rest.zip (List.replicate rest.length (0:ℤ)))
              (Function.update P (d * 1 + (1 - 1)) (P (d * 1 + (1 - 1)) + 1)) =
              Function.update P (d * 1 + (1 - 1)) (P (d * 1 + (1 - 1)) + 1) := by
            apply seedShort_zero_wts
            intro pr hpr
            exact List.eq_of_mem_replicate (List.of_mem_zip hpr).2
          rw [honehot, List.zip_cons_cons, seedShort, hzero]
          simp
      | succ i =>
          have honehot : oneHot (d :: rest).length (i + 1) =
              0 :: oneHot rest.length i := by
            simp [oneHot]
          rw [honehot, List.zip_cons_cons, seedShort, add_zero,
            Function.update_eq_self, ih i P (by simpa using hi)]
          simp

lemma slot_inj (p : Nat) {d1 k1 d2 k2 : Nat} (h1 : k1 < p) (h2 : k2 < p)
    (h : d1 * p + k1 = d2 * p + k2) : d1 = d2 ∧ k1 = k2 := by
  have hd : d1 = d2 := by
    have e1 : (d1 * p + k1) / p = d1 := by
      rw [Nat.mul_comm, Nat.mul_add_div (by omega), Nat.div_eq_of_lt h1]; omega
    have e2 : (d2 * p + k2) / p = d2 := by
      rw [Nat.mul_comm, Nat.mul_add_div (by omega), Nat.div_eq_of_lt h2]; omega
    rw [← e1, ← e2, h]
  refine ⟨hd, ?_⟩
  subst hd
  omega

lemma rowFold_apply_mem (w : List ℤ) (p d i K k : Nat) (hk : k < K) (P : Buf) :
    ((List.range K).foldl
      (fun Q k2 => Function.update Q (d * p + k2) (w.getD (i * p + k2) 0)) P)
      (d * p + k) = w.getD (i * p + k) 0 := by
  induction K generalizing P with
  | zero => omega
  | succ K ih =>
      rw [List.range_succ, List.foldl_append, List.foldl_cons, List.foldl_nil]
      rcases Nat.lt_or_ge k K with h | h
      · rw [Function.update_noteq (by omega), ih h]
      · have hkK : k = K := by omega
        subst hkK
        rw [Function.update_same]

lemma rowFold_apply_ne (w : List ℤ) (p d i K b : Nat)
    (hb : ∀ k < K, b ≠ d * p + k) (P : Buf) :
    ((List.range K).foldl
      (fun Q k2 => Function.update Q (d * p + k2) (w.getD (i * p + k2) 0)) P) b
      = P b := by
  induction K generalizing P with
  | zero => rfl
  | succ K ih =>
      rw [List.range_succ, List.foldl_append, List.foldl_cons, List.foldl_nil,
        Function.update_noteq (hb K (Nat.lt_succ_self K)),
        ih (fun k hk => hb k (Nat.lt_succ_of_lt hk))]

lemma seedLongRow_apply_row (w : List ℤ) (p d i k : Nat) (hk : k < p) (P : Buf) :
    seedLongRow w p d i P (d * p + k) = w.getD (i * p + k) 0 :=
  rowFold_apply_mem w p d i p k hk P

lemma seedLongRow_apply_ne (w : List ℤ) (p d i b : Nat)
    (hb : ∀ k < p, b ≠ d * p + k) (P : Buf) :
    seedLongRow w p d i P b = P b :=
  rowFold_apply_ne w p d i p b hb P

lemma seedLong_unchanged (w : List ℤ) (p b : Nat) (dep : List Nat)
    (hb : ∀ d2 ∈ dep, ∀ k2 < p, b ≠ d2 * p + k2) :
    ∀ (i : Nat) (P : Buf), seedLong w p dep i P b = P b := by
  induction dep with
  | nil => intro i P; rfl
  | cons d rest ih =>
      intro i P
      rw [seedLong, ih (fun d2 hd2 => hb d2 (List.mem_cons_of_mem _ hd2)),
        seedLongRow_apply_ne w p d i b (hb d (List.mem_cons_self _ _)) P]

lemma seedLong_apply_mem (w : List ℤ) (p : Nat) (d k : Nat)
    (hk : k < p) :
    ∀ (dep : List Nat) (t i : Nat) (P : Buf), dep[t]? = some d →
      (∀ t2, dep[t2]? = some d → t2 = t) →
      seedLong w p dep i P (d * p + k) = w.getD ((i + t) * p + k) 0 := by
  intro dep
  induction dep with
  | nil => intro t i P ht _; simp at ht
  | cons d' rest ih =>
      intro t i P ht huniq
      cases t with
      | zero =>
          have hd : d' = d := by simpa using ht
          subst hd
          rw [seedLong, seedLong_unchanged]
          · rw [seedLongRow_apply_row w p d' i k hk P]
            simp
          · intro d2 hd2 k2 hk2 heq
            obtain ⟨hdd, _⟩ := slot_inj p hk hk2 heq
            subst hdd
            obtain ⟨t2, ht2⟩ := List.mem_iff_get?.mp hd2
            have : t2 + 1 = 0 := huniq (t2 + 1) (by simpa using ht2)
            omega
      | succ t =>
          have hne : d' ≠ d := by
            intro hdd
            subst hdd
            have : 0 = t + 1 := huniq 0 (by simp)
            omega
          rw [seedLong, ih t (i + 1) _ (by simpa using ht)
            (fun t2 h2 => by
              have : t2 + 1 = t + 1 := huniq (t2 + 1) (by simpa using h2)
              omega)]
          have : i + 1 + t = i + (t + 1) := by omega
          rw [this]

lemma oneHotLong_length (w : List ℤ) (p : Nat) :
    (oneHotLong w p).length = w.length * p :=
  range_flatMap_map_length w.length p _

lemma oneHotLong_getD (w : List ℤ) (p i k : Nat) (hi : i < w.length)
    (hk : k < p) :
    (oneHotLong w p).getD (i * p + k) 0 = if k = p - 1 then w.getD i 0 else 0 := by
  rw [List.getD_eq_getElem?_getD, oneHotLong,
    range_flatMap_map_getElem? w.length p i k _ hi hk]
  rfl

lemma zip_filter_sum_nodup (dep : List Nat) (w : List ℤ) (d t : Nat)
    (hnd : dep.Nodup) (ht : dep[t]? = some d) :
    (((dep.zip w).filter fun pr => pr.1 == d).map Prod.snd).sum = w.getD t 0 := by
  induction dep generalizing w t with
  | nil => simp at ht
  | cons d' rest ih =>
      cases w with
      | nil => simp
      | cons wi wrest =>
          cases t with
          | zero =>
              have hd : d' = d := by simpa using ht
              subst hd
              have hnotin : d' ∉ rest := (List.nodup_cons.mp hnd).1
              have hfil : (rest.zip wrest).filter (fun pr => pr.1 == d') = [] := by
                rw [List.filter_eq_nil_iff]
                intro pr hpr hbeq
                exact hnotin (by
                  have h1 := (List.of_mem_zip hpr).1
                  have h2 : pr.1 = d' := by simpa using hbeq
                  rwa [h2] at h1)
              simp [List.zip_cons_cons, List.filter_cons, hfil]
          | succ t =>
              have hdin : d ∈ rest := List.getElem?_mem (by simpa using ht)
              have hne : d' ≠ d := by
                intro h
                exact (List.nodup_cons.mp hnd).1 (h ▸ hdin)
              have hbeq : (d' == d) = false := by simp [hne]
              rw [List.zip_cons_cons, List.filter_cons]
              simp only [hbeq, Bool.false_eq_true, if_false]
              rw [ih wrest t (List.nodup_cons.mp hnd).2 (by simpa using ht)]
              simp

lemma seedShort_eq_seedLong_oneHot (dep : List Nat) (w : List ℤ) (p : Nat)
    (hp : 0 < p) (hnd : dep.Nodup) (hw : w.length = dep.length) :
    seedShort p (dep.zip w) (fun _ => 0) =
      seedLong (oneHotLong w p) p dep 0 (fun _ => 0) := by
  funext b
  obtain ⟨d, r, hr, rfl⟩ : ∃ d r, r < p ∧ b = d * p + r :=
    ⟨b / p, b % p, Nat.mod_lt _ hp,
      by rw [Nat.mul_comm]; exact (Nat.div_add_mod b p).symm⟩
  by_cases hd : d ∈ dep
  · obtain ⟨t, ht⟩ := List.mem_iff_get?.mp hd
    have ht' : dep[t]? = some d := by rw [← List.get?_eq_getElem?]; exact ht
    have htlen : t < dep.length := (List.getElem?_eq_some.mp ht').1
    have huniq : ∀ t2, dep[t2]? = some d → t2 = t := fun t2 h2 =>
      List.getElem?_inj (List.getElem?_eq_some.mp h2).1 hnd (by rw [h2, ht'])
    rw [seedLong_apply_mem (oneHotLong w p) p d r hr dep t 0 _ ht' huniq,
      Nat.zero_add, oneHotLong_getD w p t r (by omega) hr]
    by_cases hrp : r = p - 1
    · subst hrp
      rw [seedShort_apply p hp (dep.zip w) _ d, if_pos rfl,
        zip_filter_sum_nodup dep w d t hnd ht']
      simp
    · rw [if_neg hrp, seedShort_apply_ne]
      intro pr hpr heq
      exact hrp (slot_inj p hr (by omega) heq).2
  · have hlong : seedLong (oneHotLong w p) p dep 0 (fun _ => 0) (d * p + r)
        = 0 := by
      rw [seedLong_unchanged]
      intro d2 hd2 k2 hk2 heq
      exact hd ((slot_inj p hr hk2 heq).1 ▸ hd2)
    rw [hlong]
    by_cases hrp : r = p - 1
    · subst hrp
      rw [seedShort_apply p hp (dep.zip w) _ d]
      have hfil : (dep.zip w).filter (fun pr => pr.1 == d) = [] := by
        rw [List.filter_eq_nil_iff]
        intro pr hpr hbeq
        exact hd (by
          have h1 := (List.of_mem_zip hpr).1
          have h2 : pr.1 = d := by simpa using hbeq
          rwa [h2] at h1)
      rw [hfil]
      simp
    · rw [seedShort_apply_ne]
      intro pr hpr heq
      exact hrp (slot_inj p hr (by omega) heq).2

lemma myReverse_ok_shape (F : ADFunState) (sweep : Buf → Buf) (p : Nat)
    (w : List ℤ) (dvi : Nat) (value : Buf) (out : Buf × ADFunState)
    (h : myReverse F sweep p w dvi value = .ok out) :
    p = 1 ∧
      out.1 = writeValue F.op_inv_index F.ind_taddr 1
        (sweep (Function.update F.Partial
          (F.dep_taddr.getD dvi 0 * 1 + (1 - 1)) 1)) value ∧
      out.2 = { F with Partial := clearMarked F.op_mark 1 (sweep (Function.update F.Partial (F.dep_taddr.getD dvi 0 * 1 + (1 - 1)) 1)) } := by
  by_cases hp : p = 1
  · subst hp
    refine ⟨rfl, ?_⟩
    simp only [myReverse, ne_eq, not_true_eq_false, if_false] at h
    split_ifs at h with h1 h2 h3
    all_goals cases h
    exact ⟨rfl, rfl⟩
  · rw [myReverse, if_pos hp] at h
    cases h

lemma seeded_of_zero (F : ADFunState) (hz : ∀ a, F.Partial a = 0) (s : Nat) :
    Function.update F.Partial (s * 1 + (1 - 1)) 1 =
      Function.update (fun _ => 0) s 1 := by
  have hFz : F.Partial = fun _ => 0 := funext hz
  have hidx : s * 1 + (1 - 1) = s := by omega
  rw [hFz, hidx]

lemma ReverseFull_ok_shape (F : ADFunState) (sweep : Buf → Buf) (p : Nat)
    (w : List ℤ) (out : List ℤ × ADFunState)
    (h : ReverseFull F sweep p w = .ok out) :
    out.1 = ReverseExtract F.ind_taddr p F.dep_taddr.length w
        (ReverseLocalBuf F sweep p w) ∧ out.2 = F := by
  simp only [ReverseFull] at h
  split_ifs at h with h1 h2 h3
  all_goals cases h
  exact ⟨rfl, rfl⟩

lemma reverseExtract_one_getD (ind : List Nat) (m : Nat) (w : List ℤ)
    (buf : Buf) (j : Nat) (hw : w.length = m) (hj : j < ind.length) :
    (ReverseExtract ind 1 m w buf).getD j 0 = buf (ind.getD j 0) := by
  have hidx : j = j * 1 + 0 := by omega
  have h2 : (ReverseExtract ind 1 m w buf)[j]? =
      (ReverseExtract ind 1 m w buf)[j * 1 + 0]? := by rw [← hidx]
  rw [List.getD_eq_getElem?_getD, h2, ReverseExtract,
    range_flatMap_map_getElem? _ 1 j 0 _ hj (by decide),
    Option.getD_some, if_pos hw]
  congr 1
  omega

/-! ### Claim theorems -/

/-- Claim C3 (code bug): long-weight-form seeding overwrites instead of
accumulating.  With `p = 2`, two dependent variables aliasing tape address
`3`, and long-form weights giving row `[5, 0]` to the first entry and
`[7, 0]` to the second, the seeded buffer at row 3 order 0 holds `7` (the
later entry alone), not the sum `5 + 7` the claim requires. -/
theorem longSeed_overwrites_on_alias :
    ReverseSeed ⟨8, [], [3, 3], 2, fun _ => 0, [], []⟩ 2 [5, 0, 7, 0]
        (3 * 2 + 0) = 7 ∧
      (7 : ℤ) ≠ 5 + 7 := by
  constructor
  · decide
  · norm_num

/-- Claim C4: in short weight form, seeding accumulates with `+=`, so the
seeded value at a buffer row is the sum of the weights of every
dependent-variable entry aliasing that address (in particular, two aliased
entries contribute the sum of both weights, not the later one alone). -/
theorem shortSeed_sums_aliases (F : ADFunState) (p : Nat) (w : List ℤ)
    (a : Nat) (hp : 0 < p) (hw : w.length = F.dep_taddr.length) :
    ReverseSeed F p w (a * p + (p - 1)) =
      (((F.dep_taddr.zip w).filter fun pr => pr.1 == a).map Prod.snd).sum := by
  rw [ReverseSeed, if_pos hw, seedShort_apply p hp _ _ a]
  simp

/-- Witness for C4: two dependent variables aliasing address 3 with
weights 5 and 7 seed the value 12 = 5 + 7. -/
theorem shortSeed_sums_aliases_witness :
    ReverseSeed ⟨4, [], [3, 3], 1, fun _ => 0, [], []⟩ 1 [5, 7]
        (3 * 1 + (1 - 1)) = 12 := by
  rw [shortSeed_sums_aliases ⟨4, [], [3, 3], 1, fun _ => 0, [], []⟩ 1 [5, 7] 3
    (by decide) (by decide)]
  decide

/-- Claim C5: the extraction loop of `Reverse` follows the Reverse
Identity reindexing rule: entry `j*p+k` of the result reads the swept
buffer at `ind_taddr_[j]*p + (p-1-k)` when `w` has the short form and at
`ind_taddr_[j]*p + k` when it has the long form. -/
theorem reverse_extract_reindexes (F : ADFunState) (sweep : Buf → Buf)
    (p : Nat) (w : List ℤ) (v : List ℤ) (F' : ADFunState) (j k : Nat)
    (hok : ReverseFull F sweep p w = .ok (v, F'))
    (hj : j < F.ind_taddr.length) (hk : k < p) :
    v[j * p + k]? = some (if w.length = F.dep_taddr.length
      then ReverseLocalBuf F sweep p w (F.ind_taddr.getD j 0 * p + (p - 1 - k))
      else ReverseLocalBuf F sweep p w (F.ind_taddr.getD j 0 * p + k)) := by
  have hv := (ReverseFull_ok_shape F sweep p w (v, F') hok).1
  simp only at hv
  rw [hv, ReverseExtract, range_flatMap_map_getElem? _ p j k _ hj hk]

/-- Witness for C5 at a concrete engine state, `p = 1`, short-form `w`. -/
theorem reverse_extract_reindexes_witness :
    (ReverseExtract [1] 1 1 [(2 : ℤ)]
        (ReverseLocalBuf ⟨2, [1], [0], 1, fun _ => 0, [], []⟩ id 1 [2]))[0 * 1 + 0]? =
      some (if ([(2 : ℤ)].length = ([0] : List Nat).length)
        then ReverseLocalBuf ⟨2, [1], [0], 1, fun _ => 0, [], []⟩ id 1 [2]
          (([1] : List Nat).getD 0 0 * 1 + (1 - 1 - 0))
        else ReverseLocalBuf ⟨2, [1], [0], 1, fun _ => 0, [], []⟩ id 1 [2]
          (([1] : List Nat).getD 0 0 * 1 + 0)) :=
  reverse_extract_reindexes ⟨2, [1], [0], 1, fun _ => 0, [], []⟩ id 1 [2] _ _ 0 0
    (ReverseFull_ok ⟨2, [1], [0], 1, fun _ => 0, [], []⟩ id 1 [2]
      (Or.inl (by decide)) (by decide) (by decide))
    (by decide) (by decide)

/-- Claim C6: `myReverse` called with any `p ≠ 1` fails with the
documented precondition message and does not execute (the call returns the
error without producing any updated state or result). -/
theorem myReverse_rejects_higher_order (F : ADFunState) (sweep : Buf → Buf)
    (p : Nat) (w : List ℤ) (dvi : Nat) (value : Buf) (hp : p ≠ 1) :
    myReverse F sweep p w dvi value = .error myReverseMsgP := by
  rw [myReverse, if_pos hp]

/-- Witness for C6 at `p = 2`. -/
theorem myReverse_rejects_higher_order_witness :
    myReverse ⟨0, [], [], 0, fun _ => 0, [], []⟩ id 2 [] 0 (fun _ => 0) =
      .error myReverseMsgP :=
  myReverse_rejects_higher_order ⟨0, [], [], 0, fun _ => 0, [], []⟩ id 2 [] 0
    (fun _ => 0) (by decide)

/-- Claim C7: `Reverse` fails with an invalid-argument error whenever
`w.size()` is neither `m` nor `m*p`, or `p = 0`, or fewer than `p` Taylor
coefficients are stored; the checks fire before the local adjoint buffer
is seeded, and the engine state is never touched (`Reverse` returns no
updated state on failure). -/
theorem reverse_rejects_preconditions (F : ADFunState) (sweep : Buf → Buf)
    (p : Nat) (w : List ℤ)
    (hviol : (w.length ≠ F.dep_taddr.length ∧
        w.length ≠ F.dep_taddr.length * p) ∨ p = 0 ∨ F.taylor_per_var < p) :
    ∃ msg, ReverseFull F sweep p w = .error msg := by
  simp only [ReverseFull]
  by_cases h1 : w.length ≠ F.dep_taddr.length ∧
      w.length ≠ F.dep_taddr.length * p
  · exact ⟨reverseMsgW, by rw [if_pos h1]⟩
  · rw [if_neg h1]
    by_cases h2 : p = 0
    · exact ⟨reverseMsgP, by rw [if_pos h2]⟩
    · rw [if_neg h2]
      have h3 : F.taylor_per_var < p := by tauto
      exact ⟨reverseMsgTaylor, by rw [if_pos h3]⟩

/-- Witness for C7: `p = 0` is rejected. -/
theorem reverse_rejects_preconditions_witness :
    ∃ msg, ReverseFull ⟨1, [], [], 0, fun _ => 0, [], []⟩ id 0 [] =
      .error msg :=
  reverse_rejects_preconditions ⟨1, [], [], 0, fun _ => 0, [], []⟩ id 0 []
    (Or.inr (Or.inl rfl))

/-- Counterexample to claim C9 as stated: a concrete `Reverse` call whose
sweep writes `1` into buffer address 0 (the seed), while the engine's
shared member buffer is still all-zero after the call — the shared buffer
observable by a subsequent selective sweep does not reflect the full
sweep's writes, because `Reverse` works in a call-local buffer. -/
theorem reverse_shared_buffer_untouched_cex :
    ReverseFull ⟨2, [0], [0], 1, fun _ => 0, [], []⟩ id 1 [1] =
      .ok (ReverseExtract [0] 1 1 [(1 : ℤ)]
        (ReverseLocalBuf ⟨2, [0], [0], 1, fun _ => 0, [], []⟩ id 1 [1]),
        ⟨2, [0], [0], 1, fun _ => 0, [], []⟩) ∧
    ReverseLocalBuf ⟨2, [0], [0], 1, fun _ => 0, [], []⟩ id 1 [1] 0 = 1 ∧
    (⟨2, [0], [0], 1, fun _ => 0, [], []⟩ : ADFunState).Partial 0 = 0 ∧
    (1 : ℤ) ≠ 0 := by
  refine ⟨?_, by decide, rfl, by decide⟩
  exact ReverseFull_ok ⟨2, [0], [0], 1, fun _ => 0, [], []⟩ id 1 [1]
    (Or.inl (by decide)) (by decide) (by decide)

/-- Claim C9 (amended): `Reverse` allocates a call-local adjoint buffer;
it never mutates the engine's shared member buffer, so every successful
call returns the state unchanged and a subsequent `myReverse` call
observes exactly the state it would have observed before the `Reverse`
call. -/
theorem reverse_preserves_engine_state (F : ADFunState) (sweep : Buf → Buf)
    (p : Nat) (w : List ℤ) (v : List ℤ) (F' : ADFunState)
    (hok : ReverseFull F sweep p w = .ok (v, F')) :
    F' = F ∧ ∀ (sweep2 : Buf → Buf) (p2 : Nat) (w2 : List ℤ) (dvi : Nat)
      (value : Buf),
      myReverse F' sweep2 p2 w2 dvi value = myReverse F sweep2 p2 w2 dvi value := by
  have hF : F' = F := (ReverseFull_ok_shape F sweep p w (v, F') hok).2
  exact ⟨hF, fun sweep2 p2 w2 dvi value => by rw [hF]⟩

/-- Witness for the amended C9 at a concrete call. -/
theorem reverse_preserves_engine_state_witness :
    (⟨2, [0], [0], 1, fun _ => 0, [1], []⟩ : ADFunState) =
        ⟨2, [0], [0], 1, fun _ => 0, [1], []⟩ ∧
      ∀ (sweep2 : Buf → Buf) (p2 : Nat) (w2 : List ℤ) (dvi : Nat)
        (value : Buf),
        myReverse (⟨2, [0], [0], 1, fun _ => 0, [1], []⟩ : ADFunState)
            sweep2 p2 w2 dvi value =
          myReverse (⟨2, [0], [0], 1, fun _ => 0, [1], []⟩ : ADFunState)
            sweep2 p2 w2 dvi value :=
  reverse_preserves_engine_state ⟨2, [0], [0], 1, fun _ => 0, [1], []⟩ id 1 [1]
    (ReverseExtract [0] 1 1 [(1 : ℤ)]
      (ReverseLocalBuf ⟨2, [0], [0], 1, fun _ => 0, [1], []⟩ id 1 [1]))
    ⟨2, [0], [0], 1, fun _ => 0, [1], []⟩
    (ReverseFull_ok ⟨2, [0], [0], 1, fun _ => 0, [1], []⟩ id 1 [1]
      (Or.inl (by decide)) (by decide) (by decide))

/-- Claim C10: `myReverse` writes only the entries of the caller-supplied
result vector whose index is `it - 1` for some `it` in `op_inv_index_`;
every other entry keeps exactly the value it had before the call. -/
theorem myReverse_value_frame (F : ADFunState) (sweep : Buf → Buf)
    (w : List ℤ) (dvi : Nat) (value : Buf) (out : Buf × ADFunState)
    (idx : Nat) (hok : myReverse F sweep 1 w dvi value = .ok out)
    (hidx : ∀ it ∈ F.op_inv_index, idx ≠ it - 1) :
    out.1 idx = value idx := by
  obtain ⟨-, h1, -⟩ := myReverse_ok_shape F sweep 1 w dvi value out hok
  rw [h1, writeValue_apply_one, if_neg]
  simp only [List.mem_map]
  rintro ⟨it, hit, hEq⟩
  exact hidx it hit hEq.symm

/-- Witness for C10: with `op_inv_index_ = [2]` only entry 1 is written;
entry 0 keeps its prior value 42. -/
theorem myReverse_value_frame_witness :
    (writeValue [2] [0, 0] 1
        (id (Function.update (fun _ => (0 : ℤ))
          (([0] : List Nat).getD 0 0 * 1 + (1 - 1)) 1))
        (fun _ => 42), ({ (⟨2, [0, 0], [0], 1, fun _ => 0, [2], []⟩ : ADFunState) with Partial := clearMarked [] 1 (id (Function.update (fun _ => (0 : ℤ)) (([0] : List Nat).getD 0 0 * 1 + (1 - 1)) 1)) } : ADFunState)).1 0
      = (fun _ => (42 : ℤ)) 0 :=
  myReverse_value_frame ⟨2, [0, 0], [0], 1, fun _ => 0, [2], []⟩ id [1] 0
    (fun _ => 42) _ 0
    (myReverse_ok ⟨2, [0, 0], [0], 1, fun _ => 0, [2], []⟩ id [1] 0
      (fun _ => 42) (by decide) (by decide))
    (by decide)

/-- Counterexample to claim C8 as stated: for the function `y = x`
(dependent variable aliasing the independent variable's address, empty
operation tape, so the sweep is the identity), `p = 2`, short weights
`w = [1]` and the equivalent long one-hot weights `oneHotLong [1] 2 =
[0, 1]`, the two `Reverse` calls return `[1, 0]` and `[0, 1]`: the
vectors are order-reversals of each other, not equal. -/
theorem reverse_short_long_unequal_cex :
    ReverseFull ⟨2, [1], [1], 2, fun _ => 0, [], []⟩ id 2 [1] =
      .ok (ReverseExtract [1] 2 1 [(1 : ℤ)]
        (ReverseLocalBuf ⟨2, [1], [1], 2, fun _ => 0, [], []⟩ id 2 [1]),
        ⟨2, [1], [1], 2, fun _ => 0, [], []⟩) ∧
    ReverseFull ⟨2, [1], [1], 2, fun _ => 0, [], []⟩ id 2 (oneHotLong [1] 2) =
      .ok (ReverseExtract [1] 2 1 (oneHotLong [1] 2)
        (ReverseLocalBuf ⟨2, [1], [1], 2, fun _ => 0, [], []⟩ id 2
          (oneHotLong [1] 2)),
        ⟨2, [1], [1], 2, fun _ => 0, [], []⟩) ∧
    ReverseExtract [1] 2 1 [(1 : ℤ)]
        (ReverseLocalBuf ⟨2, [1], [1], 2, fun _ => 0, [], []⟩ id 2 [1]) =
      [1, 0] ∧
    ReverseExtract [1] 2 1 (oneHotLong [1] 2)
        (ReverseLocalBuf ⟨2, [1], [1], 2, fun _ => 0, [], []⟩ id 2
          (oneHotLong [1] 2)) =
      [0, 1] ∧
    ([1, 0] : List ℤ) ≠ [0, 1] := by
  refine ⟨?_, ?_, by decide, by decide, by decide⟩
  · exact ReverseFull_ok ⟨2, [1], [1], 2, fun _ => 0, [], []⟩ id 2 [1]
      (Or.inl (by decide)) (by decide) (by decide)
  · exact ReverseFull_ok ⟨2, [1], [1], 2, fun _ => 0, [], []⟩ id 2
      (oneHotLong [1] 2) (Or.inr (by decide)) (by decide) (by decide)

/-- Claim C8 (amended): for `p > 1`, distinct dependent-variable
addresses, and short weights `w` of length `m > 0`, the `Reverse` result
for `w` and the `Reverse` result for the equivalent long one-hot weights
agree up to reversal of the order index: entry `j*p+k` of the short-form
result equals entry `j*p+(p-1-k)` of the long-form result (both calls
succeed and share the same swept buffer, and the short form's `p-1-k`
extraction reindexing is exactly what the long form's direct `k` indexing
undoes). -/
theorem reverse_short_long_order_reversed (F : ADFunState)
    (sweep : Buf → Buf) (p : Nat) (w : List ℤ) (j k : Nat)
    (hp : 1 < p) (hm : 0 < F.dep_taddr.length) (hnd : F.dep_taddr.Nodup)
    (hw : w.length = F.dep_taddr.length) (htay : p ≤ F.taylor_per_var)
    (hj : j < F.ind_taddr.length) (hk : k < p) :
    ∃ vs vl : List ℤ,
      ReverseFull F sweep p w = .ok (vs, F) ∧
      ReverseFull F sweep p (oneHotLong w p) = .ok (vl, F) ∧
      vs[j * p + k]? = vl[j * p + (p - 1 - k)]? := by
  have hs := ReverseFull_ok F sweep p w (Or.inl hw) (by omega) htay
  have hlen : (oneHotLong w p).length = F.dep_taddr.length * p := by
    rw [oneHotLong_length, hw]
  have hmlt : F.dep_taddr.length < F.dep_taddr.length * p := by
    calc F.dep_taddr.length = F.dep_taddr.length * 1 := by omega
      _ < F.dep_taddr.length * p := mul_lt_mul_of_pos_left hp hm
  have hlne : (oneHotLong w p).length ≠ F.dep_taddr.length := by omega
  have hl := ReverseFull_ok F sweep p (oneHotLong w p) (Or.inr hlen)
    (by omega) htay
  refine ⟨_, _, hs, hl, ?_⟩
  have hseedeq : ReverseSeed F p w = ReverseSeed F p (oneHotLong w p) := by
    rw [ReverseSeed, ReverseSeed, if_pos hw, if_neg hlne]
    exact seedShort_eq_seedLong_oneHot F.dep_taddr w p (by omega) hnd hw
  rw [ReverseExtract, ReverseExtract,
    range_flatMap_map_getElem? _ p j k _ hj hk,
    range_flatMap_map_getElem? _ p j (p - 1 - k) _ hj (by omega),
    if_pos hw, if_neg hlne, ReverseLocalBuf, ReverseLocalBuf, hseedeq]

/-- Witness for the amended C8 at the `y = x` engine of the
counterexample, `j = 0`, `k = 0`. -/
theorem reverse_short_long_order_reversed_witness :
    ∃ vs vl : List ℤ,
      ReverseFull ⟨2, [1], [1], 2, fun _ => 0, [], []⟩ id 2 [1] =
        .ok (vs, ⟨2, [1], [1], 2, fun _ => 0, [], []⟩) ∧
      ReverseFull ⟨2, [1], [1], 2, fun _ => 0, [], []⟩ id 2
          (oneHotLong [1] 2) =
        .ok (vl, ⟨2, [1], [1], 2, fun _ => 0, [], []⟩) ∧
      vs[0 * 2 + 0]? = vl[0 * 2 + (2 - 1 - 0)]? :=
  reverse_short_long_order_reversed ⟨2, [1], [1], 2, fun _ => 0, [], []⟩ id 2
    [1] 0 0 (by decide) (by decide) (by decide) (by decide) (by decide)
    (by decide) (by decide)

/-- Claim C1: a `myReverse` call whose relevance marking is complete
(every buffer address left nonzero by the seeded propagation belongs to
the rows the cleanup loop clears, as determined by the marked operations'
result-slot counts) maps a shared buffer that is all-zero on entry to a
shared buffer that is all-zero on return; consequently, after any
sequence of such calls on the same engine instance starting from an
all-zero shared buffer, the shared buffer contains all zeros. -/
theorem myReverse_buffer_zero_invariant :
    (∀ (F : ADFunState) (sweep : Buf → Buf) (w : List ℤ) (dvi : Nat)
        (value : Buf) (out : Buf × ADFunState),
      (∀ a, F.Partial a = 0) →
      (∀ a, sweep (Function.update (fun _ => 0)
          (F.dep_taddr.getD dvi 0) 1) a ≠ 0 →
        a ∈ clearedAddrs F.op_mark 1) →
      myReverse F sweep 1 w dvi value = .ok out →
      ∀ a, out.2.Partial a = 0) ∧
    (∀ (F : ADFunState) (calls : List RevCall) (Ffin : ADFunState),
      (∀ a, F.Partial a = 0) →
      (∀ c ∈ calls, c.w.length = F.dep_taddr.length ∧
        ∀ a, c.sweep (Function.update (fun _ => 0)
          (F.dep_taddr.getD c.dep_var_index 0) 1) a ≠ 0 →
          a ∈ clearedAddrs F.op_mark 1) →
      runCalls calls F = .ok Ffin →
      ∀ a, Ffin.Partial a = 0) := by
  have hsingle : ∀ (F : ADFunState) (sweep : Buf → Buf) (w : List ℤ)
      (dvi : Nat) (value : Buf) (out : Buf × ADFunState),
      (∀ a, F.Partial a = 0) →
      (∀ a, sweep (Function.update (fun _ => 0)
          (F.dep_taddr.getD dvi 0) 1) a ≠ 0 →
        a ∈ clearedAddrs F.op_mark 1) →
      myReverse F sweep 1 w dvi value = .ok out →
      ∀ a, out.2.Partial a = 0 := by
    intro F sweep w dvi value out hz hcomp hok a
    obtain ⟨-, -, h2⟩ := myReverse_ok_shape F sweep 1 w dvi value out hok
    rw [h2]
    show clearMarked F.op_mark 1 (sweep (Function.update F.Partial
      (F.dep_taddr.getD dvi 0 * 1 + (1 - 1)) 1)) a = 0
    rw [seeded_of_zero F hz (F.dep_taddr.getD dvi 0), clearMarked,
      zeroAt_apply]
    by_cases ha : a ∈ clearedAddrs F.op_mark 1
    · rw [if_pos ha]
    · rw [if_neg ha]
      by_contra hne
      exact ha (hcomp a hne)
  refine ⟨hsingle, ?_⟩
  intro F calls
  induction calls generalizing F with
  | nil =>
      intro Ffin hz _ hok
      rw [runCalls] at hok
      cases hok
      exact hz
  | cons c cs ih =>
      intro Ffin hz hcalls hok
      cases hm2 : myReverse F c.sweep 1 c.w c.dep_var_index (fun _ => 0) with
      | error e => rw [runCalls, hm2] at hok; cases hok
      | ok out =>
          rw [runCalls, hm2] at hok
          have hz2 : ∀ a, out.2.Partial a = 0 :=
            hsingle F c.sweep c.w c.dep_var_index (fun _ => 0) out hz
              (hcalls c (List.mem_cons_self _ _)).2 hm2
          obtain ⟨-, -, h2⟩ := myReverse_ok_shape F c.sweep 1 c.w
            c.dep_var_index (fun _ => 0) out hm2
          have hdep : out.2.dep_taddr = F.dep_taddr := by rw [h2]
          have hmark : out.2.op_mark = F.op_mark := by rw [h2]
          refine ih out.2 Ffin hz2 ?_ hok
          intro c' hc'
          rw [hdep, hmark]
          exact hcalls c' (List.mem_cons_of_mem _ hc')

/-- Witness for C1: a one-operation engine whose marked operation covers
the seed row 5; after the call the shared buffer is zero at the seed
address (and everywhere). -/
theorem myReverse_buffer_zero_invariant_witness :
    clearMarked [(5, 1)] 1 (id (Function.update (fun _ => (0 : ℤ))
      (([5] : List Nat).getD 0 0 * 1 + (1 - 1)) 1)) 5 = 0 :=
  (myReverse_buffer_zero_invariant.1 ⟨6, [0], [5], 1, fun _ => 0, [], [(5, 1)]⟩
    id [1] 0 (fun _ => 0) _ (fun _ => rfl)
    (by
      intro a ha
      by_cases h5 : a = 5
      · subst h5; decide
      · exact absurd (Function.update_noteq h5 1 (fun _ => 0)) ha)
    (myReverse_ok ⟨6, [0], [5], 1, fun _ => 0, [], [(5, 1)]⟩ id [1] 0
      (fun _ => 0) (by decide) (by decide))) 5

/-- Claim C2: for `p = 1` and a single dependent variable `i`, with the
shared buffer all-zero on entry and a complete relevance marking,
`myReverse` (running the selective sweep over the tape's relevant
operations) writes, at every position it writes — the entries `it - 1`
for `it` in `op_inv_index_` — exactly the value that `Reverse` (running
the full sweep over the whole tape) returns at that position when called
with `p = 1` and weight vector all-zero except `w[i] = 1`. -/
theorem myReverse_matches_full_reverse (F : ADFunState) (tape : List TapeOp)
    (i : Nat) (value : Buf)
    (hi : i < F.dep_taddr.length)
    (hz : ∀ a, F.Partial a = 0)
    (hcomp : markingComplete (F.dep_taddr.getD i 0) tape)
    (htay : 1 ≤ F.taylor_per_var)
    (hinv : ∀ it ∈ F.op_inv_index, it - 1 < F.ind_taddr.length) :
    ∃ (v' : Buf) (F' : ADFunState) (out : List ℤ) (F'' : ADFunState),
      myReverse F (selSweep tape) 1 (oneHot F.dep_taddr.length i) i value =
        .ok (v', F') ∧
      ReverseFull F (fullSweep tape) 1 (oneHot F.dep_taddr.length i) =
        .ok (out, F'') ∧
      ∀ it ∈ F.op_inv_index, v' (it - 1) = out.getD (it - 1) 0 := by
  have hwlen : (oneHot F.dep_taddr.length i).length = F.dep_taddr.length :=
    oneHot_length _ _
  have hmy := myReverse_ok F (selSweep tape) (oneHot F.dep_taddr.length i) i
    value hwlen htay
  have hfull := ReverseFull_ok F (fullSweep tape) 1
    (oneHot F.dep_taddr.length i) (Or.inl hwlen) (by decide) htay
  refine ⟨_, _, _, _, hmy, hfull, ?_⟩
  intro it hit
  have hseedsel : Function.update F.Partial
      (F.dep_taddr.getD i 0 * 1 + (1 - 1)) 1 =
      Function.update (fun _ => 0) (F.dep_taddr.getD i 0) 1 :=
    seeded_of_zero F hz _
  have hseedfull : ReverseSeed F 1 (oneHot F.dep_taddr.length i) =
      Function.update (fun _ => 0) (F.dep_taddr.getD i 0) 1 := by
    rw [ReverseSeed, if_pos hwlen, seedShort_oneHot F.dep_taddr i _ hi]
    simp
  have hseedzero : ∀ a, relAddr (F.dep_taddr.getD i 0) tape a = false →
      Function.update (fun _ => (0 : ℤ)) (F.dep_taddr.getD i 0) 1 a = 0 := by
    intro a ha
    by_cases has : a = F.dep_taddr.getD i 0
    · rw [has] at ha
      simp [relAddr] at ha
    · rw [Function.update_noteq has]
  obtain ⟨hfs, -⟩ := sweeps_agree_marked tape (F.dep_taddr.getD i 0) hcomp
    (Function.update (fun _ => (0 : ℤ)) (F.dep_taddr.getD i 0) 1) hseedzero
  have hjlt := hinv it hit
  have hv' : writeValue F.op_inv_index F.ind_taddr 1
      (selSweep tape (Function.update F.Partial
        (F.dep_taddr.getD i 0 * 1 + (1 - 1)) 1)) value (it - 1) =
      selSweep tape (Function.update (fun _ => 0) (F.dep_taddr.getD i 0) 1)
        (F.ind_taddr.getD (it - 1) 0) := by
    rw [hseedsel, writeValue_apply_one, if_pos]
    exact List.mem_map.mpr ⟨it, hit, rfl⟩
  have hout : (ReverseExtract F.ind_taddr 1 F.dep_taddr.length
      (oneHot F.dep_taddr.length i)
      (ReverseLocalBuf F (fullSweep tape) 1
        (oneHot F.dep_taddr.length i))).getD (it - 1) 0 =
      fullSweep tape (Function.update (fun _ => 0) (F.dep_taddr.getD i 0) 1)
        (F.ind_taddr.getD (it - 1) 0) := by
    rw [reverseExtract_one_getD _ _ _ _ _ hwlen hjlt, ReverseLocalBuf,
      hseedfull]
  rw [hv', hout, hfs]

/-- Witness for C2: the tape `y = 3 * x` (variable 2 is three times
variable 1), one relevant operation, `op_inv_index_ = [1]`; the selective
and full sweeps both give gradient 3 at the written position 0. -/
theorem myReverse_matches_full_reverse_witness :
    ∃ (v' : Buf) (F' : ADFunState) (out : List ℤ) (F'' : ADFunState),
      myReverse ⟨3, [1], [2], 1, fun _ => 0, [1], [(2, 1)]⟩
          (selSweep [⟨2, [(1, 3)], true⟩]) 1
          (oneHot ([2] : List Nat).length 0) 0 (fun _ => 0) =
        .ok (v', F') ∧
      ReverseFull ⟨3, [1], [2], 1, fun _ => 0, [1], [(2, 1)]⟩
          (fullSweep [⟨2, [(1, 3)], true⟩]) 1
          (oneHot ([2] : List Nat).length 0) =
        .ok (out, F'') ∧
      ∀ it ∈ (⟨3, [1], [2], 1, fun _ => 0, [1], [(2, 1)]⟩ :
          ADFunState).op_inv_index,
        v' (it - 1) = out.getD (it - 1) 0 :=
  myReverse_matches_full_reverse ⟨3, [1], [2], 1, fun _ => 0, [1], [(2, 1)]⟩
    [⟨2, [(1, 3)], true⟩] 0 (fun _ => 0) (by decide) (fun _ => rfl)
    (by
      intro op hop hrel
      rw [List.mem_singleton] at hop
      subst hop
      exact absurd hrel (by decide))
    (by decide)
    (by
      intro it hit
      rw [List.mem_singleton] at hit
      subst hit
      decide)

end TMBReverse
